import Mathlib

/-!
Shallow embedding of `cmd/put.go` from the `dbxcli` repository: the `put`
upload orchestrator, the chunked upload-session driver (`uploadChunked`),
the single-shot upload (`uploadFile`), and the path/timestamp helpers.

A remote API call is recorded as an `ApiCall` value; a reader is a list of
bytes consumed by `take`/`drop`; fallible remote calls draw their outcomes
from a `RemoteBehavior` oracle, so the success path is the `noError`
behavior and error paths are behaviors whose oracle returns an error.
-/

namespace DbxCli

/-- `const chunkSize int64 = 1 << 24` from `cmd/put.go`. -/
def chunkSize : Int := 2 ^ 24

/-- Nanoseconds in one second (`time.Second` as a nanosecond count). -/
def nsPerSecond : Int := 1000000000

/-- A Go `time.Time`: an instant (nanoseconds since the Unix epoch) together
with a location name. -/
structure GoTime where
  ns : Int
  loc : String
deriving DecidableEq

/-- Go `t.UTC()`: same instant, location set to UTC. -/
def GoTime.utc (t : GoTime) : GoTime :=
  { ns := t.ns, loc := "UTC" }

/-- Go `t.Round(time.Second)` on the instant: `r` is the sub-second part
(`0 ≤ r < nsPerSecond`); if `r` is less than half a second the instant is
rounded down, otherwise up (halves round away from zero). -/
def roundToSecond (ns : Int) : Int :=
  let r := ns % nsPerSecond
  if r + r < nsPerSecond then ns - r else ns - r + nsPerSecond

/-- Go `t.Round(time.Second)` on a `GoTime` (location preserved). -/
def GoTime.roundSecond (t : GoTime) : GoTime :=
  { t with ns := roundToSecond t.ns }

/-- `files.CommitInfo` as used by `put`: destination path, write mode tag and
the client-modified timestamp. -/
structure CommitInfo where
  path : String
  mode : String
  clientModified : GoTime
deriving DecidableEq

/-- The commit metadata built by the per-file task in `put`:
`files.NewCommitInfo(dst)` with `Mode.Tag = "overwrite"` and
`ClientModified = time.Now().UTC().Round(time.Second)`. -/
def buildCommitInfo (dst : String) (now : GoTime) : CommitInfo :=
  { path := dst, mode := "overwrite", clientModified := (now.utc).roundSecond }

/-- `files.UploadSessionCursor`: the session id returned by the start call and
a byte offset. -/
structure UploadSessionCursor where
  sessionId : String
  offset : Int
deriving DecidableEq

/-- One remote API call made by the `put` command, with the bytes it carries. -/
inductive ApiCall where
  | upload : CommitInfo → List Nat → ApiCall
  | uploadSessionStart : List Nat → ApiCall
  | uploadSessionAppend : UploadSessionCursor → List Nat → ApiCall
  | uploadSessionFinish : UploadSessionCursor → CommitInfo → List Nat → ApiCall
deriving DecidableEq

/-- The bytes carried by a call. -/
def ApiCall.bytes : ApiCall → List Nat
  | .upload _ b => b
  | .uploadSessionStart b => b
  | .uploadSessionAppend _ b => b
  | .uploadSessionFinish _ _ b => b

/-- Whether a call is a single-shot `Upload`. -/
def ApiCall.isUpload : ApiCall → Bool
  | .upload _ _ => true
  | _ => false

/-- Whether a call is an `UploadSessionAppend`. -/
def ApiCall.isSessionAppend : ApiCall → Bool
  | .uploadSessionAppend _ _ => true
  | _ => false

/-- Whether a call is an `UploadSessionFinish`. -/
def ApiCall.isSessionFinish : ApiCall → Bool
  | .uploadSessionFinish _ _ _ => true
  | _ => false

/-- The commit metadata a call transmits, if any. -/
def ApiCall.commitInfoOf : ApiCall → Option CommitInfo
  | .upload ci _ => some ci
  | .uploadSessionFinish _ ci _ => some ci
  | _ => none

/-- Outcomes of the remote calls: `appendErr i` is the outcome of the `i`-th
append call of a session (counting from 0); `none` means success. -/
structure RemoteBehavior where
  startErr : Option String
  appendErr : Nat → Option String
  finishErr : Option String
  uploadErr : Option String

/-- The behavior in which every remote call succeeds. -/
def noError : RemoteBehavior :=
  { startErr := none, appendErr := fun _ => none, finishErr := none, uploadErr := none }

/-- The `for (sizeTotal - written) > chunkSize` loop of `uploadChunked`:
on each iteration it calls `UploadSessionAppend` with the cursor
`(sid, written)` and a `LimitedReader` of at most `chunkSize` bytes, then
adds `chunkSize` to `written`; on an error it returns at once. Returns the
calls made, the error if any, the unread remainder of the stream and the
final value of `written`. `i` indexes the append calls for the oracle. -/
def appendLoop (beh : RemoteBehavior) (i : Nat) (sid : String) (stream : List Nat)
    (sizeTotal written : Int) : List ApiCall × Option String × List Nat × Int :=
  if sizeTotal - written > chunkSize then
    let call := ApiCall.uploadSessionAppend ⟨sid, written⟩ (stream.take chunkSize.toNat)
    match beh.appendErr i with
    | some e => ([call], some e, stream.drop chunkSize.toNat, written)
    | none =>
      let res := appendLoop beh (i + 1) sid (stream.drop chunkSize.toNat) sizeTotal
        (written + chunkSize)
      (call :: res.1, res.2.1, res.2.2.1, res.2.2.2)
  else
    ([], none, stream, written)
termination_by (sizeTotal - written).toNat
decreasing_by
  have hc : (0 : Int) < chunkSize := by decide
  omega

/-- `uploadChunked(dbx, r, commitInfo, sizeTotal)`: one `UploadSessionStart`
call with a `LimitedReader` of `chunkSize` bytes, then the append loop with
`written = chunkSize`, then one `UploadSessionFinish` with the cursor
`(sid, written)`, the commit metadata and the rest of the reader. Returns
the calls made, the error if any, and the unread remainder of the stream. -/
def uploadChunked (beh : RemoteBehavior) (sid : String) (ci : CommitInfo)
    (stream : List Nat) (sizeTotal : Int) : List ApiCall × Option String × List Nat :=
  let startCall := ApiCall.uploadSessionStart (stream.take chunkSize.toNat)
  match beh.startErr with
  | some e => ([startCall], some e, stream.drop chunkSize.toNat)
  | none =>
    let res := appendLoop beh 0 sid (stream.drop chunkSize.toNat) sizeTotal chunkSize
    match res.2.1 with
    | some e => (startCall :: res.1, some e, res.2.2.1)
    | none =>
      (startCall :: (res.1 ++ [ApiCall.uploadSessionFinish ⟨sid, res.2.2.2⟩ ci res.2.2.1]),
        beh.finishErr, [])

/-- `uploadFile(dbx, commitInfo, progressbar)`: one single-shot `Upload` call
carrying whatever is left of the reader. -/
def uploadFile (beh : RemoteBehavior) (ci : CommitInfo) (stream : List Nat) :
    List ApiCall × Option String :=
  ([ApiCall.upload ci stream], beh.uploadErr)

/-- The upload part of the per-file task body in `put`: if the file size
exceeds `chunkSize` it runs `uploadChunked` (returning its error on failure)
and then — unconditionally — `uploadFile` on the same, already consumed,
reader; otherwise it runs `uploadFile` on the whole reader. A failing
`uploadFile` is reported as `Did not upload <arg>`. -/
def putFile (beh : RemoteBehavior) (arg sid : String) (ci : CommitInfo)
    (stream : List Nat) : List ApiCall × Option String :=
  let size : Int := stream.length
  if size > chunkSize then
    let res := uploadChunked beh sid ci stream size
    match res.2.1 with
    | some e => (res.1, some e)
    | none =>
      let u := uploadFile beh ci res.2.2
      (res.1 ++ u.1,
        match u.2 with
        | some _ => some ("Did not upload " ++ arg)
        | none => none)
  else
    let u := uploadFile beh ci stream
    (u.1,
      match u.2 with
      | some _ => some ("Did not upload " ++ arg)
      | none => none)

/-- `strings.TrimSuffix(s, suffix)`: when `suffix` ends `s` the result is
`s[:len(s)-len(suffix)]`, otherwise `s` unchanged. -/
def trimSuffix (s suffix : String) : String :=
  if suffix.toList.isSuffixOf s.toList
  then String.mk (s.toList.take (s.toList.length - suffix.toList.length))
  else s

/-- `fullName(fileName, destination)` from `cmd/put.go`:
`strings.TrimSuffix(destination, "/") + "/" + fileName`. -/
def fullName (fileName destination : String) : String :=
  trimSuffix destination ("/") ++ "/" ++ fileName

/-- Go `path.Base`: empty path gives `"."`; otherwise trailing slashes are
stripped, the part after the last slash is taken, and an all-slash path
gives `"/"`. -/
def pathBase (p : String) : String :=
  if p = "" then "."
  else
    let r := p.toList.reverse.dropWhile (fun c => c = '/')
    let b := r.takeWhile (fun c => c ≠ '/')
    if b = [] then "/" else String.mk b.reverse

/-- Modelled from the spec: `validatePath` is defined elsewhere in this
repository (not among the provided sources); per the spec the combined
path "is validated (must be absolute-like, non-empty) and fails with a
`PathValidationError` if not". -/
def validatePath (p : String) : Except String String :=
  if p ≠ "" ∧ p.toList.head? = some '/' then Except.ok p
  else Except.error ("path validation error")

instance : DecidableEq (Except String String) := fun a b =>
  match a, b with
  | Except.ok x, Except.ok y => decidable_of_iff (x = y) (by simp)
  | Except.error x, Except.error y => decidable_of_iff (x = y) (by simp)
  | Except.ok _, Except.error _ => isFalse (fun h => Except.noConfusion h)
  | Except.error _, Except.ok _ => isFalse (fun h => Except.noConfusion h)

/-- The destination resolution of the per-file task body in `put`:
`dst := "/" + path.Base(arg)`, replaced by `validatePath(fullName(arg,
destination))` when a destination was supplied. -/
def resolveDst (arg destination : String) : Except String String :=
  if destination ≠ "" then validatePath (fullName arg destination)
  else Except.ok ("/" ++ pathBase arg)

/-- The whole per-file task body launched by `put` for one argument:
resolve the destination, open and stat the file (outcomes `openErr`,
`statErr`), build the commit metadata from the current wall clock `now`,
and run the upload. `mtime` is the file's last-modified time as reported
by the stat call; the Go task body never reads it. -/
def putTask (beh : RemoteBehavior) (openErr statErr : Option String)
    (sid arg destination : String) (now : GoTime) (stream : List Nat)
    (mtime : GoTime) : List ApiCall × Option String :=
  match resolveDst arg destination with
  | Except.error e => ([], some e)
  | Except.ok dst =>
    match openErr with
    | some e => ([], some e)
    | none =>
      match statErr with
      | some e => ([], some e)
      | none => putFile beh arg sid (buildCommitInfo dst now) stream

/-- `put(cmd, args)`: an empty argument list fails with the missing-operands
error; a failing destination-flag lookup returns its error; otherwise one
task per argument is launched (`taskRun` is the task body, returning the
calls a task made and its error), the wait group joins them all, and `put`
returns `nil` — the task results are discarded. -/
def put (args : List String) (destFlag : Except String String)
    (taskRun : String → List ApiCall × Option String) :
    Option String × List (List ApiCall × Option String) :=
  if args.length = 0 then (some ("missing operands to `put`"), [])
  else
    match destFlag with
    | Except.error e => (some e, [])
    | Except.ok _ => (none, args.map taskRun)

/-- A concrete commit-metadata value used in witnesses and counterexamples. -/
def ci0 : CommitInfo := buildCommitInfo ("/a.txt") ⟨0, "Local"⟩

/-- A behavior whose every append call fails. -/
def behFail : RemoteBehavior :=
  { startErr := none, appendErr := fun _ => some ("append failed"), finishErr := none,
    uploadErr := none }

/-! ### Facts about the append loop -/

theorem chunkSize_pos : (0 : Int) < chunkSize := by decide

theorem chunkSize_toNat_cast : (chunkSize.toNat : Int) = chunkSize := by decide

/-- The bytes carried by the append calls, followed by the unread remainder,
reassemble the input stream (any behavior). -/
theorem appendLoop_concat (beh : RemoteBehavior) (i : Nat) (sid : String)
    (stream : List Nat) (sizeTotal written : Int) :
    ((appendLoop beh i sid stream sizeTotal written).1.map ApiCall.bytes).flatten ++
      (appendLoop beh i sid stream sizeTotal written).2.2.1 = stream := by
  induction i, sid, stream, sizeTotal, written using appendLoop.induct beh with
  | case1 i sid stream sizeTotal written hgt e herr =>
    rw [appendLoop, if_pos hgt, herr]
    simp [ApiCall.bytes]
  | case2 i sid stream sizeTotal written hgt herr ih =>
    rw [appendLoop, if_pos hgt, herr]
    simp only [List.map_cons, ApiCall.bytes, List.flatten_cons, List.append_assoc]
    rw [ih]
    exact List.take_append_drop _ _
  | case3 i sid stream sizeTotal written hgt =>
    rw [appendLoop, if_neg hgt]
    simp

/-- The unread remainder after the loop is a `drop` of the input stream by
one chunk per call made (any behavior). -/
theorem appendLoop_rest (beh : RemoteBehavior) (i : Nat) (sid : String)
    (stream : List Nat) (sizeTotal written : Int) :
    (appendLoop beh i sid stream sizeTotal written).2.2.1 =
      stream.drop (chunkSize.toNat * (appendLoop beh i sid stream sizeTotal written).1.length) := by
  induction i, sid, stream, sizeTotal, written using appendLoop.induct beh with
  | case1 i sid stream sizeTotal written hgt e herr =>
    rw [appendLoop, if_pos hgt, herr]
    simp
  | case2 i sid stream sizeTotal written hgt herr ih =>
    rw [appendLoop, if_pos hgt, herr]
    simp only [List.length_cons]
    rw [ih, List.drop_drop, Nat.mul_succ, Nat.add_comm]
  | case3 i sid stream sizeTotal written hgt =>
    rw [appendLoop, if_neg hgt]
    simp

/-- Every call the loop makes is an `UploadSessionAppend`, the `k`-th one
carrying the cursor `(sid, written + k * chunkSize)` and the `k`-th bounded
chunk of the stream (any behavior). -/
theorem appendLoop_calls_shape (beh : RemoteBehavior) (i : Nat) (sid : String)
    (stream : List Nat) (sizeTotal written : Int) :
    (appendLoop beh i sid stream sizeTotal written).1 =
      (List.range (appendLoop beh i sid stream sizeTotal written).1.length).map
        (fun (k : Nat) => ApiCall.uploadSessionAppend ⟨sid, written + chunkSize * (k : Int)⟩
          ((stream.drop (chunkSize.toNat * k)).take chunkSize.toNat)) := by
  induction i, sid, stream, sizeTotal, written using appendLoop.induct beh with
  | case1 i sid stream sizeTotal written hgt e herr =>
    rw [appendLoop, if_pos hgt, herr]
    simp [List.range_succ]
  | case2 i sid stream sizeTotal written hgt herr ih =>
    rw [appendLoop, if_pos hgt, herr]
    simp only [List.length_cons]
    rw [List.range_succ_eq_map, List.map_cons, List.map_map]
    refine congrArg₂ List.cons (by simp) ?_
    rw [ih]
    simp only [List.length_map, List.length_range]
    refine List.map_congr_left ?_
    intro k _
    simp only [Function.comp]
    rw [List.drop_drop]
    refine congrArg₂ ApiCall.uploadSessionAppend ?_ ?_
    · refine congrArg (UploadSessionCursor.mk sid) ?_
      push_cast
      ring
    · rw [Nat.mul_succ, Nat.add_comm]
  | case3 i sid stream sizeTotal written hgt =>
    rw [appendLoop, if_neg hgt]
    simp

/-- Before each iteration that runs, the remaining byte count exceeds the
chunk size (any behavior). -/
theorem appendLoop_guard (beh : RemoteBehavior) (i : Nat) (sid : String)
    (stream : List Nat) (sizeTotal written : Int) :
    ∀ k, k < (appendLoop beh i sid stream sizeTotal written).1.length →
      chunkSize < sizeTotal - (written + chunkSize * (k : Int)) := by
  induction i, sid, stream, sizeTotal, written using appendLoop.induct beh with
  | case1 i sid stream sizeTotal written hgt e herr =>
    intro k hk
    rw [appendLoop, if_pos hgt, herr] at hk
    simp at hk
    subst hk
    simpa using hgt
  | case2 i sid stream sizeTotal written hgt herr ih =>
    intro k hk
    rw [appendLoop, if_pos hgt, herr] at hk
    simp only [List.length_cons] at hk
    match k with
    | 0 => simpa using hgt
    | Nat.succ k =>
      have h2 := ih k (by omega)
      push_cast
      push_cast at h2
      linarith
  | case3 i sid stream sizeTotal written hgt =>
    intro k hk
    rw [appendLoop, if_neg hgt] at hk
    simp at hk

theorem chunkSize_eq : chunkSize = 16777216 := by decide

theorem toNat_chunk_lit : (16777216 : Int).toNat = 16777216 := by decide

/-- The loop makes at most `(sizeTotal - written - 1) / chunkSize` append
calls (any behavior): the iteration count is finite. -/
theorem appendLoop_len_bound (beh : RemoteBehavior) (i : Nat) (sid : String)
    (stream : List Nat) (sizeTotal written : Int) :
    ((appendLoop beh i sid stream sizeTotal written).1.length : Int) ≤
      max 0 ((sizeTotal - written - 1) / chunkSize) := by
  rcases Nat.eq_zero_or_pos (appendLoop beh i sid stream sizeTotal written).1.length with h | h
  · simp only [h, Nat.cast_zero]
    exact le_max_left 0 _
  · have hg := appendLoop_guard beh i sid stream sizeTotal written
      ((appendLoop beh i sid stream sizeTotal written).1.length - 1) (by omega)
    refine le_max_of_le_right ?_
    rw [chunkSize_eq] at hg ⊢
    omega

/-- With an all-success behavior the loop reports no error. -/
theorem appendLoop_ok_err (beh : RemoteBehavior) (hok : ∀ j, beh.appendErr j = none)
    (i : Nat) (sid : String) (stream : List Nat) (sizeTotal written : Int) :
    (appendLoop beh i sid stream sizeTotal written).2.1 = none := by
  induction i, sid, stream, sizeTotal, written using appendLoop.induct beh with
  | case1 i sid stream sizeTotal written hgt e herr =>
    rw [hok i] at herr
    cases herr
  | case2 i sid stream sizeTotal written hgt herr ih =>
    rw [appendLoop, if_pos hgt, herr]
    exact ih
  | case3 i sid stream sizeTotal written hgt =>
    rw [appendLoop, if_neg hgt]

/-- With an all-success behavior, `written` advances by exactly one chunk per
append call made. -/
theorem appendLoop_ok_written (beh : RemoteBehavior) (hok : ∀ j, beh.appendErr j = none)
    (i : Nat) (sid : String) (stream : List Nat) (sizeTotal written : Int) :
    (appendLoop beh i sid stream sizeTotal written).2.2.2 =
      written + chunkSize * ((appendLoop beh i sid stream sizeTotal written).1.length : Int) := by
  induction i, sid, stream, sizeTotal, written using appendLoop.induct beh with
  | case1 i sid stream sizeTotal written hgt e herr =>
    rw [hok i] at herr
    cases herr
  | case2 i sid stream sizeTotal written hgt herr ih =>
    rw [appendLoop, if_pos hgt, herr]
    simp only [List.length_cons]
    rw [ih]
    push_cast
    ring
  | case3 i sid stream sizeTotal written hgt =>
    rw [appendLoop, if_neg hgt]
    simp

/-- With an all-success behavior and at least one byte still unsent, the
number of append calls is exactly `(sizeTotal - written - 1) / chunkSize`. -/
theorem appendLoop_ok_len (beh : RemoteBehavior) (hok : ∀ j, beh.appendErr j = none)
    (i : Nat) (sid : String) (stream : List Nat) (sizeTotal written : Int)
    (h1 : 1 ≤ sizeTotal - written) :
    ((appendLoop beh i sid stream sizeTotal written).1.length : Int) =
      (sizeTotal - written - 1) / chunkSize := by
  revert h1
  induction i, sid, stream, sizeTotal, written using appendLoop.induct beh with
  | case1 i sid stream sizeTotal written hgt e herr =>
    rw [hok i] at herr
    cases herr
  | case2 i sid stream sizeTotal written hgt herr ih =>
    intro h1
    rw [appendLoop, if_pos hgt, herr]
    simp only [List.length_cons]
    have h2 : 1 ≤ sizeTotal - (written + chunkSize) := by
      rw [chunkSize_eq] at hgt ⊢
      omega
    have h3 := ih h2
    push_cast
    push_cast at h3
    rw [h3]
    rw [chunkSize_eq] at hgt ⊢
    omega
  | case3 i sid stream sizeTotal written hgt =>
    intro h1
    rw [appendLoop, if_neg hgt]
    simp only [List.length_nil, Nat.cast_zero]
    rw [chunkSize_eq] at hgt ⊢
    omega

/-- Every call the loop makes is an `UploadSessionAppend` (any behavior). -/
theorem appendLoop_calls_append_only (beh : RemoteBehavior) (i : Nat) (sid : String)
    (stream : List Nat) (sizeTotal written : Int) :
    ∀ c ∈ (appendLoop beh i sid stream sizeTotal written).1, c.isSessionAppend = true := by
  intro c hc
  rw [appendLoop_calls_shape] at hc
  simp only [List.mem_map, List.mem_range] at hc
  obtain ⟨k, _, rfl⟩ := hc
  rfl

/-- No call the loop makes transmits commit metadata (any behavior). -/
theorem appendLoop_calls_no_commit (beh : RemoteBehavior) (i : Nat) (sid : String)
    (stream : List Nat) (sizeTotal written : Int) :
    ∀ c ∈ (appendLoop beh i sid stream sizeTotal written).1, c.commitInfoOf = none := by
  intro c hc
  rw [appendLoop_calls_shape] at hc
  simp only [List.mem_map, List.mem_range] at hc
  obtain ⟨k, _, rfl⟩ := hc
  rfl

/-- With an all-success behavior, `uploadChunked` makes the start call, the
append calls and the finish call with the cursor at the final `written`,
leaving the reader fully consumed. -/
theorem uploadChunked_ok (beh : RemoteBehavior) (hstart : beh.startErr = none)
    (hok : ∀ j, beh.appendErr j = none) (sid : String) (ci : CommitInfo)
    (stream : List Nat) (sizeTotal : Int) :
    uploadChunked beh sid ci stream sizeTotal =
      (ApiCall.uploadSessionStart (stream.take chunkSize.toNat) ::
        ((appendLoop beh 0 sid (stream.drop chunkSize.toNat) sizeTotal chunkSize).1 ++
          [ApiCall.uploadSessionFinish
            ⟨sid, (appendLoop beh 0 sid (stream.drop chunkSize.toNat) sizeTotal chunkSize).2.2.2⟩
            ci (appendLoop beh 0 sid (stream.drop chunkSize.toNat) sizeTotal chunkSize).2.2.1]),
        beh.finishErr, []) := by
  unfold uploadChunked
  simp only [hstart, appendLoop_ok_err beh hok]

/-- For a file of at most `chunkSize` bytes the task makes exactly the one
single-shot `Upload` call carrying the whole stream (any behavior). -/
theorem putFile_small (beh : RemoteBehavior) (arg sid : String) (ci : CommitInfo)
    (stream : List Nat) (h : (stream.length : Int) ≤ chunkSize) :
    putFile beh arg sid ci stream =
      ([ApiCall.upload ci stream],
        match beh.uploadErr with
        | some _ => some ("Did not upload " ++ arg)
        | none => none) := by
  unfold putFile uploadFile
  rw [if_neg (not_lt.mpr h)]

/-- For a file larger than `chunkSize` bytes, the success-path call sequence
of the task: start, the append calls, finish at the final offset, and then
the extra single-shot `Upload` call on the exhausted reader. -/
theorem putFile_chunked_spec (arg sid : String) (ci : CommitInfo) (stream : List Nat)
    (hS : chunkSize < (stream.length : Int)) :
    ∃ appends finishBytes,
      putFile noError arg sid ci stream =
        (ApiCall.uploadSessionStart (stream.take chunkSize.toNat) ::
          (appends ++ [ApiCall.uploadSessionFinish
              ⟨sid, chunkSize + chunkSize * (appends.length : Int)⟩ ci finishBytes,
            ApiCall.upload ci []]), none) ∧
      ((appends.length : Int) = ((stream.length : Int) - chunkSize - 1) / chunkSize ∧
        appends = (List.range appends.length).map (fun (k : Nat) =>
          ApiCall.uploadSessionAppend ⟨sid, chunkSize + chunkSize * (k : Int)⟩
            (((stream.drop chunkSize.toNat).drop (chunkSize.toNat * k)).take chunkSize.toNat)) ∧
        finishBytes = (stream.drop chunkSize.toNat).drop (chunkSize.toNat * appends.length) ∧
        ((putFile noError arg sid ci stream).1.map ApiCall.bytes).flatten = stream) := by
  have hok : ∀ j, noError.appendErr j = none := fun _ => rfl
  set s1 := stream.drop chunkSize.toNat with hs1
  set res := appendLoop noError 0 sid s1 (stream.length : Int) chunkSize with hres
  have hwr : res.2.2.2 = chunkSize + chunkSize * (res.1.length : Int) :=
    appendLoop_ok_written noError hok 0 sid s1 _ chunkSize
  have hmain : putFile noError arg sid ci stream =
      (ApiCall.uploadSessionStart (stream.take chunkSize.toNat) ::
        (res.1 ++ [ApiCall.uploadSessionFinish ⟨sid, res.2.2.2⟩ ci res.2.2.1,
          ApiCall.upload ci []]), none) := by
    unfold putFile
    rw [if_pos hS, uploadChunked_ok noError rfl hok sid ci stream _]
    have hfin : noError.finishErr = none := rfl
    have hupl : noError.uploadErr = none := rfl
    simp only [uploadFile, hfin, hupl, ← hres]
    simp [List.append_assoc]
  refine ⟨res.1, res.2.2.1, ?_, ?_, ?_, ?_, ?_⟩
  · rw [hmain, hwr]
  · exact appendLoop_ok_len noError hok 0 sid s1 _ chunkSize (by rw [chunkSize_eq] at hS ⊢; omega)
  · exact appendLoop_calls_shape noError 0 sid s1 _ chunkSize
  · exact appendLoop_rest noError 0 sid s1 _ chunkSize
  · have hcat := appendLoop_concat noError 0 sid s1 (stream.length : Int) chunkSize
    rw [← hres] at hcat
    rw [hmain]
    simp only [List.map_cons, List.map_append, ApiCall.bytes, List.flatten_cons,
      List.flatten_append, List.map_nil, List.flatten_nil, List.append_nil]
    rw [hcat, hs1]
    exact List.take_append_drop _ _

/-! ### Claim theorems -/

/-- C3: for every non-empty argument list whose destination-flag lookup
succeeds, `put` joins all per-file tasks and then returns nil, no matter
what the tasks returned: per-task errors are never collected or re-raised
by the join. -/
theorem C3_put_returns_nil (args : List String) (d : String)
    (taskRun : String → List ApiCall × Option String) (h : args ≠ []) :
    (put args (Except.ok d) taskRun).1 = none ∧
    (put args (Except.ok d) taskRun).2 = args.map taskRun := by
  have hlen : ¬ args.length = 0 := by simpa using h
  unfold put
  rw [if_neg hlen]
  exact ⟨rfl, rfl⟩

/-- C3 witness: one file whose task fails; `put` still returns nil. -/
theorem C3_witness :
    (put [("f.txt")] (Except.ok ("")) (fun _ => ([], some ("open failed")))).1 = none :=
  (C3_put_returns_nil [("f.txt")] ("") (fun _ => ([], some ("open failed"))) (by decide)).1

/-- C9: invoked with an empty source list, `put` returns the missing-operands
error, launches no tasks and therefore makes no upload calls. -/
theorem C9_empty_args (destFlag : Except String String)
    (taskRun : String → List ApiCall × Option String) :
    put [] destFlag taskRun = (some ("missing operands to `put`"), []) := rfl

/-- C4 counterexample: for source `dir/a.txt` and destination `/x` the task
uploads to `/x/dir/a.txt` — destination + "/" + the full source path — and
not to destination + "/" + base name, which would be `/x/a.txt`. -/
theorem C4_counterexample :
    resolveDst ("dir/a.txt") ("/x") = Except.ok ("/x/dir/a.txt") ∧
    ("/x/dir/a.txt" : String) ≠ trimSuffix ("/x") ("/") ++ "/" ++ pathBase ("dir/a.txt") := by
  decide

/-- C4 (amended): with a non-empty destination `D` the remote path is `D`
with a trailing slash stripped, then "/", then the source path exactly as
given (not its base name), passed through `validatePath`; when validation
fails, the task fails with that error and makes no calls. -/
theorem C4_destination_resolution (arg destination : String) (hd : destination ≠ "") :
    resolveDst arg destination = validatePath (trimSuffix destination ("/") ++ "/" ++ arg) ∧
    (∀ e, validatePath (fullName arg destination) = Except.error e →
      ∀ beh oe se sid now stream mtime,
        putTask beh oe se sid arg destination now stream mtime = ([], some e)) := by
  constructor
  · unfold resolveDst fullName
    rw [if_pos hd]
  · intro e he beh oe se sid now stream mtime
    unfold putTask resolveDst
    rw [if_pos hd, he]

/-- C4 witness: the amended destination resolution at a concrete input. -/
theorem C4_witness :
    resolveDst ("a.txt") ("/x/") = validatePath (trimSuffix ("/x/") ("/") ++ "/" ++ "a.txt") :=
  (C4_destination_resolution ("a.txt") ("/x/") (by decide)).1

/-- C7: the two `fullName` examples hold, and with no destination supplied
the remote path is "/" followed by the base name of the source path. -/
theorem C7_fullName_examples_and_default (arg : String) :
    fullName ("a.txt") ("/x/") = "/x/a.txt" ∧
    fullName ("a.txt") ("/x") = "/x/a.txt" ∧
    resolveDst arg ("") = Except.ok ("/" ++ pathBase arg) := by
  refine ⟨by decide, by decide, ?_⟩
  unfold resolveDst
  rw [if_neg (fun h => h rfl)]

/-- C8 counterexample: at 1.6 s after the epoch the client-modified value
sent is 2 s — rounded UP to the nearest second — and not the truncated 1 s
the claim demands. -/
theorem C8_counterexample :
    (buildCommitInfo ("/a") ⟨1600000000, "Local"⟩).clientModified.ns = 2000000000 ∧
    (buildCommitInfo ("/a") ⟨1600000000, "Local"⟩).clientModified.ns ≠
      1600000000 - 1600000000 % nsPerSecond := by
  decide

/-- C8 (amended): the client-modified timestamp is in UTC with whole-second
precision, rounded to the NEAREST second: down when the sub-second part is
under half a second, and up (never down) otherwise. -/
theorem C8_timestamp_utc_nearest_second (dst : String) (now : GoTime) :
    (buildCommitInfo dst now).clientModified.loc = "UTC" ∧
    (buildCommitInfo dst now).clientModified.ns % nsPerSecond = 0 ∧
    (2 * (now.ns % nsPerSecond) < nsPerSecond →
      (buildCommitInfo dst now).clientModified.ns = now.ns - now.ns % nsPerSecond) ∧
    (nsPerSecond ≤ 2 * (now.ns % nsPerSecond) →
      (buildCommitInfo dst now).clientModified.ns = now.ns - now.ns % nsPerSecond + nsPerSecond) := by
  have h : (buildCommitInfo dst now).clientModified.ns = roundToSecond now.ns := rfl
  refine ⟨rfl, ?_, ?_, ?_⟩
  · rw [h]
    simp only [roundToSecond, nsPerSecond]
    split <;> omega
  · intro hlt
    rw [h]
    simp only [roundToSecond, nsPerSecond] at *
    split <;> omega
  · intro hge
    rw [h]
    simp only [roundToSecond, nsPerSecond] at *
    split <;> omega

/-- C8 witness: a concrete instant 0.345678901 s into a second is sent
truncated down, in UTC. -/
theorem C8_witness :
    (buildCommitInfo ("/a") ⟨2345678901, "Local"⟩).clientModified.loc = "UTC" ∧
    (buildCommitInfo ("/a") ⟨2345678901, "Local"⟩).clientModified.ns =
      2345678901 - 2345678901 % nsPerSecond :=
  ⟨(C8_timestamp_utc_nearest_second ("/a") ⟨2345678901, "Local"⟩).1,
    (C8_timestamp_utc_nearest_second ("/a") ⟨2345678901, "Local"⟩).2.2.1 (by decide)⟩

/-- Every call `uploadChunked` makes transmits either no commit metadata or
exactly the `CommitInfo` it was handed (any behavior). -/
theorem uploadChunked_commit_calls (beh : RemoteBehavior) (sid : String) (ci : CommitInfo)
    (stream : List Nat) (sizeTotal : Int) :
    ∀ c ∈ (uploadChunked beh sid ci stream sizeTotal).1,
      c.commitInfoOf = none ∨ c.commitInfoOf = some ci := by
  intro c hc
  have hloop := appendLoop_calls_no_commit beh 0 sid (stream.drop chunkSize.toNat)
    sizeTotal chunkSize
  unfold uploadChunked at hc
  dsimp only at hc
  split at hc
  · simp only [List.mem_singleton] at hc
    subst hc
    left
    rfl
  · split at hc
    · simp only [List.mem_cons] at hc
      rcases hc with rfl | hc
      · left; rfl
      · left; exact hloop c hc
    · simp only [List.mem_cons, List.mem_append, List.mem_singleton, List.not_mem_nil,
        or_false] at hc
      rcases hc with rfl | hc | rfl
      · left; rfl
      · left; exact hloop c hc
      · right; rfl

/-- Every call `putFile` makes transmits either no commit metadata or exactly
the `CommitInfo` it was handed (any behavior). -/
theorem putFile_commit_calls (beh : RemoteBehavior) (arg sid : String) (ci : CommitInfo)
    (stream : List Nat) :
    ∀ c ∈ (putFile beh arg sid ci stream).1,
      c.commitInfoOf = none ∨ c.commitInfoOf = some ci := by
  intro c hc
  have hchunk := uploadChunked_commit_calls beh sid ci stream (stream.length : Int)
  unfold putFile at hc
  dsimp only at hc
  split at hc
  · split at hc
    · exact hchunk c hc
    · simp only [uploadFile, List.mem_append, List.mem_singleton] at hc
      rcases hc with hc | rfl
      · exact hchunk c hc
      · right; rfl
  · simp only [uploadFile, List.mem_singleton] at hc
    subst hc
    right
    rfl

/-- C10: the client-modified timestamp placed in the commit metadata comes
from the wall clock `now` at task time — UTC, rounded to the nearest
second — and never from the stat mtime: the whole task result is unchanged
under any replacement of `mtime`, and every commit metadata transmitted
carries `roundToSecond now.ns` with location UTC. -/
theorem C10_clientModified_ignores_mtime (beh : RemoteBehavior) (oe se : Option String)
    (sid arg destination : String) (now : GoTime) (stream : List Nat)
    (mtime mtimeAlt : GoTime) :
    putTask beh oe se sid arg destination now stream mtime =
      putTask beh oe se sid arg destination now stream mtimeAlt ∧
    ((putTask beh oe se sid arg destination now stream mtime).1.filterMap
        ApiCall.commitInfoOf).Forall
      (fun ci => ci.clientModified = ⟨roundToSecond now.ns, "UTC"⟩) := by
  refine ⟨rfl, ?_⟩
  rw [List.forall_iff_forall_mem]
  intro x hx
  rw [List.mem_filterMap] at hx
  obtain ⟨c, hc, hcx⟩ := hx
  unfold putTask at hc
  split at hc
  · simp at hc
  · split at hc
    · simp at hc
    · split at hc
      · simp at hc
      · rcases putFile_commit_calls beh arg sid _ stream c hc with h | h
        · rw [h] at hcx
          cases hcx
        · rw [h] at hcx
          cases hcx
          rfl

/-- C1 (amended): a file of `S ≤ chunkSize` bytes is uploaded by exactly one
single-shot `Upload` call carrying all `S` bytes and no session calls; a
file of `S > chunkSize` bytes is uploaded by one start call of `chunkSize`
bytes, `(S - chunkSize - 1) / chunkSize` append calls of `chunkSize` bytes
each, one finish call of the remaining `1..chunkSize` bytes, and — in
addition — exactly one trailing single-shot `Upload` call carrying 0 bytes
(the task re-invokes the single-shot path on the already exhausted reader);
the bytes of all calls concatenate to the stream, no byte sent twice. -/
theorem C1_upload_call_pattern (arg sid : String) (ci : CommitInfo) (stream : List Nat) :
    ((stream.length : Int) ≤ chunkSize →
      putFile noError arg sid ci stream = ([ApiCall.upload ci stream], none)) ∧
    (chunkSize < (stream.length : Int) →
      ∃ appends finishBytes,
        putFile noError arg sid ci stream =
          (ApiCall.uploadSessionStart (stream.take chunkSize.toNat) ::
            (appends ++ [ApiCall.uploadSessionFinish
                ⟨sid, chunkSize + chunkSize * (appends.length : Int)⟩ ci finishBytes,
              ApiCall.upload ci []]), none) ∧
        (appends.length : Int) = ((stream.length : Int) - chunkSize - 1) / chunkSize ∧
        (stream.take chunkSize.toNat).length = chunkSize.toNat ∧
        (∀ c ∈ appends, c.isSessionAppend = true ∧ (ApiCall.bytes c).length = chunkSize.toNat) ∧
        1 ≤ finishBytes.length ∧ (finishBytes.length : Int) ≤ chunkSize) ∧
    ((putFile noError arg sid ci stream).1.map ApiCall.bytes).flatten = stream := by
  refine ⟨?_, ?_, ?_⟩
  · intro h
    rw [putFile_small noError arg sid ci stream h]
    rfl
  · intro hS
    obtain ⟨appends, finishBytes, hmain, hlen, hshape, hfb, _⟩ :=
      putFile_chunked_spec arg sid ci stream hS
    refine ⟨appends, finishBytes, hmain, hlen, ?_, ?_, ?_, ?_⟩
    · rw [List.length_take]
      simp only [chunkSize_eq, toNat_chunk_lit] at hS ⊢
      omega
    · intro c hc
      rw [hshape] at hc
      simp only [List.mem_map, List.mem_range] at hc
      obtain ⟨k, hk, rfl⟩ := hc
      refine ⟨rfl, ?_⟩
      simp only [ApiCall.bytes, List.length_take, List.length_drop]
      simp only [chunkSize_eq, toNat_chunk_lit] at hlen hS ⊢
      omega
    · rw [hfb]
      simp only [List.length_drop]
      simp only [chunkSize_eq, toNat_chunk_lit] at hlen hS ⊢
      omega
    · rw [hfb]
      simp only [List.length_drop]
      simp only [chunkSize_eq, toNat_chunk_lit] at hlen hS ⊢
      omega
  · by_cases h : (stream.length : Int) ≤ chunkSize
    · rw [putFile_small noError arg sid ci stream h]
      simp [ApiCall.bytes]
    · obtain ⟨appends, finishBytes, _, _, _, _, hflat⟩ :=
        putFile_chunked_spec arg sid ci stream (by omega)
      exact hflat

/-- C1 witness: a three-byte file goes through the single-shot path alone. -/
theorem C1_witness :
    putFile noError ("w.txt") ("s") ci0 [0, 1, 2] = ([ApiCall.upload ci0 [0, 1, 2]], none) :=
  (C1_upload_call_pattern ("w.txt") ("s") ci0 [0, 1, 2]).1 (by decide)

/-- C1 counterexample: for a file of exactly `chunkSize + 1` bytes — the
chunked path — the code makes one single-shot `Upload` call in addition to
the session calls, refuting "no other upload calls". -/
theorem C1_counterexample :
    (putFile noError ("a.txt") ("s") ci0 (List.replicate 16777217 0)).1.countP
      ApiCall.isUpload = 1 ∧
    ¬ (putFile noError ("a.txt") ("s") ci0 (List.replicate 16777217 0)).1.countP
      ApiCall.isUpload = 0 := by
  obtain ⟨appends, finishBytes, hmain, hlen, hshape, hfb, hflat⟩ :=
    putFile_chunked_spec ("a.txt") ("s") ci0 (List.replicate 16777217 0)
      (by rw [List.length_replicate, chunkSize_eq]; omega)
  have h0 : appends.length = 0 := by
    rw [List.length_replicate, chunkSize_eq] at hlen
    omega
  have happ : appends = [] := List.length_eq_zero.mp h0
  subst happ
  have h1 : (putFile noError ("a.txt") ("s") ci0 (List.replicate 16777217 0)).1.countP
      ApiCall.isUpload = 1 := by
    rw [hmain]
    rfl
  exact ⟨h1, by rw [h1]; omega⟩

/-- C2: in a chunked upload, the bytes handed to the start call, then to each
append call in order, then to the finish call, concatenated, are exactly the
original stream — every byte consumed once, in order. -/
theorem C2_chunk_roundtrip (sid : String) (ci : CommitInfo) (stream : List Nat)
    (hS : chunkSize < (stream.length : Int)) :
    ((uploadChunked noError sid ci stream (stream.length : Int)).1.map ApiCall.bytes).flatten =
      stream := by
  have hok : ∀ j, noError.appendErr j = none := fun _ => rfl
  rw [uploadChunked_ok noError rfl hok sid ci stream _]
  simp only [List.map_cons, List.map_append, ApiCall.bytes, List.flatten_cons,
    List.flatten_append, List.map_nil, List.flatten_nil, List.append_nil]
  rw [appendLoop_concat noError 0 sid (stream.drop chunkSize.toNat) (stream.length : Int)
    chunkSize]
  exact List.take_append_drop _ _

/-- C2 witness: round trip at a concrete stream of `chunkSize + 1` bytes. -/
theorem C2_witness :
    ((uploadChunked noError ("s") ci0 (List.replicate 16777217 0)
        ((List.replicate 16777217 0).length : Int)).1.map ApiCall.bytes).flatten =
      List.replicate 16777217 0 :=
  C2_chunk_roundtrip ("s") ci0 (List.replicate 16777217 0)
    (by rw [List.length_replicate, chunkSize_eq]; omega)

/-- C5: cursor invariants of a successful chunked upload: after the start
call the committed count is `chunkSize`; the `k`-th append (counting from 1)
carries the session id returned by start and offset `k * chunkSize` — the
committed count at the time of that call, which grows by exactly `chunkSize`
per successful append — and the finish cursor carries the same session id
with offset equal to the final committed count. -/
theorem C5_cursor_invariants (sid : String) (ci : CommitInfo) (stream : List Nat)
    (hS : chunkSize < (stream.length : Int)) :
    ∃ appends rest,
      (uploadChunked noError sid ci stream (stream.length : Int)).1 =
        ApiCall.uploadSessionStart (stream.take chunkSize.toNat) ::
          (appends ++ [ApiCall.uploadSessionFinish
            ⟨sid, chunkSize + chunkSize * (appends.length : Int)⟩ ci rest]) ∧
      ∀ k : Nat, k < appends.length →
        appends[k]? = some (ApiCall.uploadSessionAppend
          ⟨sid, chunkSize * ((k : Int) + 1)⟩
          (((stream.drop chunkSize.toNat).drop (chunkSize.toNat * k)).take chunkSize.toNat)) := by
  have hok : ∀ j, noError.appendErr j = none := fun _ => rfl
  refine ⟨(appendLoop noError 0 sid (stream.drop chunkSize.toNat)
      (stream.length : Int) chunkSize).1,
    (appendLoop noError 0 sid (stream.drop chunkSize.toNat)
      (stream.length : Int) chunkSize).2.2.1, ?_, ?_⟩
  · rw [uploadChunked_ok noError rfl hok sid ci stream _,
      appendLoop_ok_written noError hok 0 sid (stream.drop chunkSize.toNat) _ chunkSize]
  · intro k hk
    conv_lhs => rw [appendLoop_calls_shape noError 0 sid (stream.drop chunkSize.toNat)
      (stream.length : Int) chunkSize]
    rw [List.getElem?_map, List.getElem?_range hk]
    refine congrArg some (congrArg₂ ApiCall.uploadSessionAppend ?_ rfl)
    refine congrArg (UploadSessionCursor.mk sid) ?_
    ring

/-- C5 witness: the invariants at a concrete stream of `chunkSize + 1`
bytes. -/
theorem C5_witness :
    ∃ appends rest,
      (uploadChunked noError ("s") ci0 (List.replicate 16777217 0)
          ((List.replicate 16777217 0).length : Int)).1 =
        ApiCall.uploadSessionStart ((List.replicate 16777217 0).take chunkSize.toNat) ::
          (appends ++ [ApiCall.uploadSessionFinish
            ⟨"s", chunkSize + chunkSize * (appends.length : Int)⟩ ci0 rest]) ∧
      ∀ k : Nat, k < appends.length →
        appends[k]? = some (ApiCall.uploadSessionAppend
          ⟨"s", chunkSize * ((k : Int) + 1)⟩
          ((((List.replicate 16777217 0).drop chunkSize.toNat).drop
            (chunkSize.toNat * k)).take chunkSize.toNat)) :=
  C5_cursor_invariants ("s") ci0 (List.replicate 16777217 0)
    (by rw [List.length_replicate, chunkSize_eq]; omega)

/-- C6: the append loop terminates — its call count is finite, bounded by
the closed form — and before each iteration that runs the remaining unsent
count exceeds `chunkSize`, decreasing by exactly `chunkSize` per iteration
(the `k`-th call is at offset `written + k * chunkSize`); when an append
errors, the loop exits at once and no finish call is made. -/
theorem C6_append_loop_termination (beh : RemoteBehavior) (sid : String) (ci : CommitInfo)
    (stream : List Nat) (sizeTotal : Int) :
    (∀ written : Int, ((appendLoop beh 0 sid stream sizeTotal written).1.length : Int) ≤
      max 0 ((sizeTotal - written - 1) / chunkSize)) ∧
    (∀ written : Int, ∀ k : Nat,
      k < (appendLoop beh 0 sid stream sizeTotal written).1.length →
      chunkSize < sizeTotal - (written + chunkSize * (k : Int))) ∧
    (∀ e, beh.startErr = none →
      (appendLoop beh 0 sid (stream.drop chunkSize.toNat) sizeTotal chunkSize).2.1 = some e →
      (uploadChunked beh sid ci stream sizeTotal).2.1 = some e ∧
      (uploadChunked beh sid ci stream sizeTotal).1.countP ApiCall.isSessionFinish = 0) := by
  refine ⟨fun written => appendLoop_len_bound beh 0 sid stream sizeTotal written,
    fun written k hk => appendLoop_guard beh 0 sid stream sizeTotal written k hk, ?_⟩
  intro e hstart herr
  have hcalls := appendLoop_calls_append_only beh 0 sid (stream.drop chunkSize.toNat)
    sizeTotal chunkSize
  unfold uploadChunked
  simp only [hstart, herr]
  refine ⟨trivial, ?_⟩
  rw [List.countP_cons_of_neg _ _ (by simp [ApiCall.isSessionFinish])]
  rw [List.countP_eq_zero]
  intro c hc
  have h1 := hcalls c hc
  cases c <;> simp_all [ApiCall.isSessionAppend, ApiCall.isSessionFinish]

/-- C6 witness: with a failing first append on a `2 * chunkSize + 1`-byte
total size, the session errors out and makes no finish call. -/
theorem C6_witness :
    (uploadChunked behFail ("s") ci0 [] (2 * chunkSize + 1)).2.1 = some ("append failed") ∧
    (uploadChunked behFail ("s") ci0 [] (2 * chunkSize + 1)).1.countP ApiCall.isSessionFinish
      = 0 :=
  (C6_append_loop_termination behFail ("s") ci0 [] (2 * chunkSize + 1)).2.2 ("append failed")
    rfl (by
      simp only [List.drop_nil]
      rw [appendLoop, if_pos (by rw [chunkSize_eq]; omega)]
      rfl)

end DbxCli
